import Mathlib

/-!
Verification development for the tr45h live-coding interpreter.

The definitions below are a shallow embedding of the JavaScript sources:
  - src/interpreter/symbols.js        (SymbolTable)
  - src/interpreter/types/tokens.js   (ASTNode / Terminal / NonTerminal / Sequence / Choice)
  - the first-pass parser             (FirstPassParser.parseIdentifier)
  - src/A0/lang/runtime/scheduler     (Scheduler.start)

JavaScript objects used as string-keyed dictionaries are modelled as
insertion-ordered association lists (JS objects preserve insertion order for
non-index string keys); in-place mutation is modelled by explicit state
passing.  Asynchronous control flow (setTimeout, await) is modelled by
explicit suspension points at which the environment may interleave actions.
-/

namespace Tr45h

/-! ## Association-list model of JS objects used as dictionaries -/

/-- Embeds `identifier in this.symbols` -/
def hasKey (l : List (String × α)) (k : String) : Bool :=
  l.any (fun kv => kv.1 == k)

/-- Embeds `this.symbols[identifier]` -/
def lookupAssoc (l : List (String × α)) (k : String) : Option α :=
  match l.find? (fun kv => kv.1 == k) with
  | some kv => some kv.2
  | none => none

/-- Embeds `this.symbols[identifier] = v`: assignment to a JS object keeps the position
of an existing key and appends a fresh key at the end. -/
def upsertAssoc (l : List (String × α)) (k : String) (v : α) : List (String × α) :=
  if hasKey l k then
    l.map (fun kv => if kv.1 == k then (k, v) else kv)
  else
    l ++ [(k, v)]

/-- Embeds `delete this.symbols[identifier]` -/
def removeAssoc (l : List (String × α)) (k : String) : List (String × α) :=
  l.filter (fun kv => kv.1 != k)

/-- lodash `uniq`: keeps the first occurrence of each element. -/
def uniqJS : List String → List String
  | [] => []
  | x :: xs => x :: (uniqJS xs).filter (fun y => y != x)

/-- lodash `xor`: symmetric difference of two arrays (as a membership-faithful list). -/
def xorJS (a b : List String) : List String :=
  a.filter (fun x => !(b.contains x)) ++ b.filter (fun x => !(a.contains x))

/-- lodash `intersection`. -/
def intersectionJS (a b : List String) : List String :=
  a.filter (fun x => b.contains x)

/-! ## SymbolTable (src/interpreter/symbols.js) -/

/-- A stored symbol record: `{identifier, type, status, value}`.  `none` models a
JS `null` field.  The decoded audio payload is abstracted as a `Nat` handle. -/
structure SymbolRecord where
  identifier : String
  type : Option String
  status : Option String
  value : Option Nat
deriving DecidableEq, Repr

/-- The partial object passed to `SymbolTable.merge`; a `none` field models a
field absent from the object literal (so the spread leaves the old value). -/
structure SymPatch where
  identifier : String
  type : Option String := none
  status : Option String := none
  value : Option Nat := none
deriving DecidableEq, Repr

/-- SymbolTable state: `symbols`, `activeIdentifiersByBlock`, plus the queue of
debounced `setTimeout(() => this._fetchNewSound(symbol), ...)` callbacks,
recorded by identifier. -/
structure SymbolTable where
  symbols : List (String × SymbolRecord)
  activeIdentifiersByBlock : List (String × List String)
  pendingFetches : List String
deriving DecidableEq, Repr

/-- Embeds `this.fetchWaitInterval = 1000  // in ms` -/
def fetchWaitInterval : Nat := 1000

/-- Embeds `SymbolTable.merge(symbol)`: shallow last-write-wins upsert; a brand-new
symbol of type `'sound'` additionally schedules one debounced fetch. -/
def SymbolTable.merge (st : SymbolTable) (symbol : SymPatch) : SymbolTable :=
  -- is this a new symbol?
  let exists_ := hasKey st.symbols symbol.identifier
  -- get existing or default fields
  let fields : SymbolRecord :=
    match lookupAssoc st.symbols symbol.identifier with
    | some r => r
    | none => { identifier := symbol.identifier, type := none, status := none, value := none }
  -- merge symbol: `{...fields, ...symbol}`
  let merged : SymbolRecord :=
    { identifier := symbol.identifier
      type := match symbol.type with | some v => some v | none => fields.type
      status := match symbol.status with | some v => some v | none => fields.status
      value := match symbol.value with | some v => some v | none => fields.value }
  let st1 := { st with symbols := upsertAssoc st.symbols symbol.identifier merged }
  -- `if (!exists && symbol.type && symbol.type === 'sound') setTimeout(...)`
  if !exists_ && symbol.type == some "sound" then
    { st1 with pendingFetches := st1.pendingFetches ++ [symbol.identifier] }
  else
    st1

/-- Embeds `SymbolTable.get(identifier)` -/
def SymbolTable.get (st : SymbolTable) (identifier : String) : Option SymbolRecord :=
  lookupAssoc st.symbols identifier

/-- Embeds `SymbolTable.remove(identifier)` -/
def SymbolTable.remove (st : SymbolTable) (identifier : String) : SymbolTable :=
  { st with symbols := removeAssoc st.symbols identifier }

/-! Lexical-analysis results consumed by `updateActiveIdentifiers`. -/

structure LexToken where
  type : String
  value : String
deriving DecidableEq, Repr

structure LexError where
  tokens : List LexToken
deriving DecidableEq, Repr

structure Lexicon where
  tokens : List LexToken
  errors : List LexError
deriving DecidableEq, Repr

/-- Embeds `uniq(flatMap(values(this.activeIdentifiersByBlock)))` -/
def allActiveIdentifiers (byBlock : List (String × List String)) : List String :=
  uniqJS (byBlock.flatMap (fun kv => kv.2))

/-- The block's active identifiers:
`uniq([...lexicon.tokens.filter(IDENTIFIER).map(value), ...flatMap(lexicon.errors, e => e.tokens).filter(IDENTIFIER).map(value)])`. -/
def activeIdentifiersOf (lexicon : Lexicon) : List String :=
  uniqJS
    ((lexicon.tokens.filter (fun t => t.type == "IDENTIFIER")).map (fun t => t.value) ++
     ((lexicon.errors.flatMap (fun e => e.tokens)).filter (fun t => t.type == "IDENTIFIER")).map
       (fun t => t.value))

/-- Embeds `SymbolTable.updateActiveIdentifiers(blockKey, lexicon)`: records the block's
active identifiers, then prunes every identifier dangling across all blocks. -/
def SymbolTable.updateActiveIdentifiers (st : SymbolTable) (blockKey : String)
    (lexicon : Lexicon) : SymbolTable :=
  let byBlock := upsertAssoc st.activeIdentifiersByBlock blockKey (activeIdentifiersOf lexicon)
  let allActive := allActiveIdentifiers byBlock
  let identifiersInSymbolTable := st.symbols.map (fun kv => kv.1)
  let danglingIdentifiers :=
    intersectionJS (xorJS identifiersInSymbolTable allActive) identifiersInSymbolTable
  -- remove dangling identifiers
  let symbols := danglingIdentifiers.foldl (fun sy d => removeAssoc sy d) st.symbols
  { st with symbols := symbols, activeIdentifiersByBlock := byBlock }

/-! ### Asynchronous sound resolution (`SymbolTable._fetchNewSound`)

The debounced callback checks existence once, up front, then awaits the remote
search, possibly awaits the preview download, and commits status/value writes
through `this.merge`.  The environment (editing the program text) may remove
the identifier at any of the suspension points; `RemovalPoint` records where
that removal, if any, happens relative to the awaits. -/

inductive RemovalPoint where
  /-- the variable is deleted before the debounced callback runs -/
  | beforeFire
  /-- the variable is deleted while the search request is awaited -/
  | duringSearch
  /-- the variable is deleted while the preview download is awaited -/
  | duringDownload
  | never
deriving DecidableEq, Repr

/-- The remote collaborator's responses: the search result list (empty means
not found) and the decoded audio of the randomly selected preview (the random
choice among results only selects which URL is downloaded, so it is absorbed
into `decoded`). -/
structure FetchEnv where
  results : List Nat
  decoded : Nat
deriving DecidableEq, Repr

/-- Embeds `SymbolTable._fetchNewSound(symbol)` with an interleaved removal at `rp`.
Returns the final table and whether the remote search was actually issued. -/
def SymbolTable.fetchNewSound (st : SymbolTable) (id : String) (env : FetchEnv)
    (rp : RemovalPoint) : SymbolTable × Bool :=
  let s1 := if rp = RemovalPoint.beforeFire then st.remove id else st
  -- `if (!(symbol.identifier in this.symbols)) return`
  if !(hasKey s1.symbols id) then (s1, false)
  else
    let s2 := s1.merge { identifier := id, status := some "searching" }
    -- `await fetch(...)` of the search request
    let s3 := if rp = RemovalPoint.duringSearch then s2.remove id else s2
    if env.results.isEmpty then
      -- no results found: mark as unavailable
      (s3.merge { identifier := id, status := some "unavailable" }, true)
    else
      let s4 := s3.merge { identifier := id, status := some "downloading" }
      -- `await fetch(previewUrl)` and decode
      let s5 := if rp = RemovalPoint.duringDownload then s4.remove id else s4
      (s5.merge { identifier := id, status := some "available", value := some env.decoded }, true)

/-! ## AST automaton (src/interpreter/types/tokens.js)

`ASTNode` holds the fully resolved `_current` and `_next` steps.  A
`NonTerminal` additionally holds `_currentNode`; since in JavaScript
`_currentNode` aliases an element of `_seq` (resp. `_choices`), the embedding
also records that element's index and writes the mutated child back into the
list after every `advance`, making the aliasing explicit. -/

/-- A fully resolved playback step.  The automaton never inspects it, so it is
abstracted to its payload. -/
structure Step where
  value : String
deriving DecidableEq, Repr, Inhabited

inductive ASTNode where
  /-- Embeds `Terminal`: `_current` and `_next` (both set to the one step). -/
  | terminal (current next : Step)
  /-- Embeds `Sequence`: `_current`, `_next`, `_currentNode`, `_seq`, `_currentNodeIndex`. -/
  | sequence (current next : Step) (currentNode : ASTNode) (seq : List ASTNode)
      (currentNodeIndex : Nat)
  /-- Embeds `Choice`: `_current`, `_next`, `_currentNode`, `_choices`, `_pdf`, `_cdf`,
  and the index of the aliased current choice. -/
  | choice (current next : Step) (currentNode : ASTNode) (choices : List ASTNode)
      (pdf cdf : List ℚ) (currentIndex : Nat)
deriving Repr

instance : Inhabited ASTNode := ⟨ASTNode.terminal default default⟩

/-- Embeds `current()` -/
def ASTNode.current : ASTNode → Step
  | .terminal c _ => c
  | .sequence c _ _ _ _ => c
  | .choice c _ _ _ _ _ _ => c

/-- Embeds `next()` -/
def ASTNode.next : ASTNode → Step
  | .terminal _ n => n
  | .sequence _ n _ _ _ => n
  | .choice _ n _ _ _ _ _ => n

/-- Embeds `new Terminal(step)`: sets the current and next steps to one step. -/
def Terminal.new (step : Step) : ASTNode := .terminal step step

/-- Embeds `new Sequence(seq)`: `super(seq[0])` reads `seq[0].current()`, which throws
on an empty list (`seq[0]` is `undefined`); modelled as `none`. -/
def Sequence.new (seq : List ASTNode) : Option ASTNode :=
  match seq with
  | [] => none
  | s0 :: _ => some (.sequence s0.current s0.current s0 seq 0)

/-- The cumulative distribution derived in the `Choice` constructor:
`let acc = 0; const cdf = pdf.map(p => (acc = p + acc))`. -/
def cdfFrom (acc : ℚ) : List ℚ → List ℚ
  | [] => []
  | p :: ps => (p + acc) :: cdfFrom (p + acc) ps

def cdfOf (pdf : List ℚ) : List ℚ := cdfFrom 0 pdf

/-- The index selected by
`choose = (choices, cdf) => choices[cdf.filter(c => c <= Math.random() * cdf[cdf.length - 1]).length]`,
with `r` standing for the `Math.random()` draw in `[0, 1)`. -/
def chooseIdx (cdf : List ℚ) (r : ℚ) : Nat :=
  (cdf.filter (fun c => decide (c ≤ r * cdf.getLastD 0))).length

/-- Embeds `new Choice(choices, pdf)`: derives the cdf and draws the initial current
node with `choose`.  A selected index outside `choices` would leave
`_currentNode` undefined and the constructor's `currentNode.current()` call
would throw; modelled as `none`. -/
def Choice.new (choices : List ASTNode) (pdf : List ℚ) (r : ℚ) : Option ASTNode :=
  let cdf := cdfOf pdf
  let k := chooseIdx cdf r
  match choices.get? k with
  | none => none
  | some cur => some (.choice cur.current cur.current cur choices pdf cdf k)

/-- Embeds `Sequence.advanceCurrentNode()`: wraps the index to 0 (reporting a cycle)
or moves to the next index.  Returns the new `_currentNodeIndex` and
`hasCycled`. -/
def Sequence.advanceCurrentNode (seqLength : Nat) (currentNodeIndex : Nat) : Nat × Bool :=
  if currentNodeIndex == seqLength - 1 then (0, true) else (currentNodeIndex + 1, false)

/-- Embeds `Choice.advanceCurrentNode()`: draws a new current choice with `choose` and
always reports `true`.  Returns the index of the newly selected child (the
source assigns `choices[index]` to `_currentNode`). -/
def Choice.advanceCurrentNode (cdf : List ℚ) (r : ℚ) : Nat × Bool :=
  (chooseIdx cdf r, true)

/-- Embeds `NonTerminal.advance()` (with the `Terminal` override): advances the current
node; if it cycled, advances the current-node pointer via the variant's
`advanceCurrentNode`, then shifts `_current`/`_next`.  Randomness for `Choice`
draws is supplied by the stream `rs`.  An out-of-range child access (impossible
for the well-formed automata considered here, and a crash in the source) yields
a default terminal. -/
def ASTNode.advance : ASTNode → List ℚ → ASTNode × Bool × List ℚ
  | .terminal c n, rs => (.terminal c n, true, rs)
  | .sequence _c n cur seq idx, rs =>
    let res := cur.advance rs
    let cur1 := res.1
    let seq1 := seq.set idx cur1
    if res.2.1 then
      let pr := Sequence.advanceCurrentNode seq1.length idx
      let cur2 := seq1.getD pr.1 default
      (.sequence n cur2.next cur2 seq1 pr.1, pr.2, res.2.2)
    else
      (.sequence n cur1.next cur1 seq1 idx, false, res.2.2)
  | .choice _c n cur choices pdf cdf k, rs =>
    let res := cur.advance rs
    let cur1 := res.1
    let choices1 := choices.set k cur1
    if res.2.1 then
      let pr := Choice.advanceCurrentNode cdf (res.2.2.headD 0)
      let cur2 := choices1.getD pr.1 default
      (.choice n cur2.next cur2 choices1 pdf cdf pr.1, pr.2, res.2.2.tail)
    else
      (.choice n cur1.next cur1 choices1 pdf cdf k, false, res.2.2)

/-- Iterates `advance`, collecting the reported cycle flags in order. -/
def runAdvances : Nat → ASTNode → List ℚ → ASTNode × List Bool × List ℚ
  | 0, node, rs => (node, [], rs)
  | Nat.succ m, node, rs =>
    let res := node.advance rs
    let rest := runAdvances m res.1 res.2.2
    (rest.1, res.2.1 :: rest.2.1, rest.2.2)

/-- The `_currentNodeIndex` of a `Sequence` node. -/
def ASTNode.seqIndex : ASTNode → Option Nat
  | .sequence _ _ _ _ i => some i
  | _ => none

/-- The `_cdf` table of a `Choice` node. -/
def ASTNode.getCdf : ASTNode → List ℚ
  | .choice _ _ _ _ _ cdf _ => cdf
  | _ => []

/-! ## Sound-literal identity (FirstPassParser.parseIdentifier)

`parseIdentifier` folds the accumulated query parameters (a JS object, hence
insertion-ordered key-value pairs) into the semantic token id:
`id: soundLiteral.value.replace(/\s+/g, '_') + '__' + paramStr`. -/

/-- The characters matched by the regex class `\s` (core cases). -/
def isJsWhitespace (c : Char) : Bool :=
  c == ' ' || c == '\t' || c == '\n' || c == '\r' || c == '\x0b' || c == '\x0c'

/-- Embeds `value.replace(/\s+/g, '_')`: each maximal whitespace run becomes one
underscore.  The flag records whether the previous character was part of a
run already replaced. -/
def collapseWsAux : Bool → List Char → List Char
  | _, [] => []
  | inRun, c :: cs =>
    if isJsWhitespace c then
      if inRun then collapseWsAux true cs
      else '_' :: collapseWsAux true cs
    else c :: collapseWsAux false cs

def replaceWsRuns (s : String) : String := String.mk (collapseWsAux false s.data)

/-- Embeds `reduce(parameters, (acc, v, k) => acc + (acc === '' ? '' : '_') + k + '-' + v, '')`
over the insertion-ordered parameter pairs. -/
def paramString (parameters : List (String × String)) : String :=
  parameters.foldl
    (fun acc kv => acc ++ (if acc = "" then "" else "_") ++ kv.1 ++ "-" ++ kv.2) ""

/-- The semantic-token id assigned to a sound literal. -/
def soundLiteralId (value : String) (parameters : List (String × String)) : String :=
  replaceWsRuns value ++ "__" ++ paramString parameters

/-- The key-value pairs of the suffix joined in their textual (insertion)
order: the closed form of `paramString`. -/
def joinParamsRest : List (String × String) → String
  | [] => ""
  | kv :: rest => "_" ++ kv.1 ++ "-" ++ kv.2 ++ joinParamsRest rest

def joinParams : List (String × String) → String
  | [] => ""
  | kv :: rest => kv.1 ++ "-" ++ kv.2 ++ joinParamsRest rest

/-! ## Scheduler (src/A0/lang/runtime/scheduler/index.js)

Only the timer lifecycle is embedded: `setInterval` is modelled as allocating a
fresh interval id and adding it to the set of live intervals (the tick callback
drives Threads and the audio sink, which are external to this development). -/

structure Scheduler where
  /-- Embeds `this.timerFn` (`null` initially). -/
  timerFn : Option Nat
  /-- Embeds `this.lookAheadInterval = 100`. -/
  lookAheadInterval : Nat
  /-- ids handed out by `setInterval` so far. -/
  nextTimerId : Nat
  /-- intervals currently live (created and not cleared). -/
  activeTimers : List Nat
deriving DecidableEq, Repr

/-- The scheduling configuration set up by the constructor. -/
def Scheduler.init : Scheduler :=
  { timerFn := none, lookAheadInterval := 100, nextTimerId := 0, activeTimers := [] }

/-- Embeds `Scheduler.start()`: refuses to start a second interval while one is
active, otherwise stores the id of a freshly created interval. -/
def Scheduler.start (s : Scheduler) : Scheduler :=
  -- make sure we aren't starting up multiple intervals
  if s.timerFn ≠ none then s
  else
    { s with
      timerFn := some s.nextTimerId
      nextTimerId := s.nextTimerId + 1
      activeTimers := s.activeTimers ++ [s.nextTimerId] }

/-- Embeds `Scheduler.stop()`: clears the interval and nulls `timerFn` (thread cursor
resets and audio suspension are external). -/
def Scheduler.stop (s : Scheduler) : Scheduler :=
  { s with
    timerFn := none
    activeTimers := match s.timerFn with
      | some t => s.activeTimers.filter (fun x => x != t)
      | none => s.activeTimers }

/-- Modelled from the spec: `advanceCurrentChild()` maps a uniform draw over
`[0, total weight)` to "the first cumulative entry greater than or equal to
the draw".  Stated as the index of that entry, for comparison with the
source's `choose`. -/
def specChooseIdx (cdf : List ℚ) (draw : ℚ) : Nat :=
  cdf.findIdx (fun c => decide (draw ≤ c))

/-- Discriminates Terminal nodes. -/
def isTerminal : ASTNode → Bool
  | .terminal _ _ => true
  | _ => false

/-! Concrete automata used by the closed instantiations further below. -/

def choiceCdfWitnessNode : ASTNode :=
  ASTNode.choice ⟨"a"⟩ ⟨"a"⟩ (ASTNode.terminal ⟨"a"⟩ ⟨"a"⟩)
    [ASTNode.terminal ⟨"a"⟩ ⟨"a"⟩, ASTNode.terminal ⟨"b"⟩ ⟨"b"⟩] [1, 2] [1, 3] 0

def choiceCurrentWitnessNode : ASTNode :=
  ASTNode.choice ⟨"a"⟩ ⟨"a"⟩ (ASTNode.terminal ⟨"a"⟩ ⟨"a"⟩)
    [ASTNode.terminal ⟨"a"⟩ ⟨"a"⟩] [1] [1] 0

def seqPeriodWitnessNode : ASTNode :=
  ASTNode.sequence ⟨"a"⟩ ⟨"a"⟩ (ASTNode.terminal ⟨"a"⟩ ⟨"a"⟩)
    [ASTNode.terminal ⟨"a"⟩ ⟨"a"⟩, ASTNode.terminal ⟨"b"⟩ ⟨"b"⟩,
      ASTNode.terminal ⟨"c"⟩ ⟨"c"⟩] 0

/-! ## Helper lemmas -/

theorem hasKey_removeAssoc (l : List (String × α)) (k : String) :
    hasKey (removeAssoc l k) k = false := by
  simp only [hasKey, removeAssoc]
  rw [Bool.eq_false_iff]
  intro h
  rcases List.any_eq_true.mp h with ⟨kv, hmem, hk⟩
  rcases List.mem_filter.mp hmem with ⟨_, hne⟩
  simp only [bne_iff_ne, ne_eq] at hne
  exact hne (by simpa using hk)

theorem hasKey_upsertAssoc_self (l : List (String × α)) (k : String) (v : α) :
    hasKey (upsertAssoc l k v) k = true := by
  unfold upsertAssoc
  by_cases h : hasKey l k
  · simp only [h, if_true]
    unfold hasKey at h ⊢
    rcases List.any_eq_true.mp h with ⟨kv, hmem, hk⟩
    apply List.any_eq_true.mpr
    exact ⟨(k, v), List.mem_map.mpr ⟨kv, hmem, by simp [hk]⟩, by simp⟩
  · simp only [h, if_false]
    unfold hasKey
    apply List.any_eq_true.mpr
    exact ⟨(k, v), by simp, by simp⟩

theorem hasKey_merge_self (st : SymbolTable) (p : SymPatch) :
    hasKey (st.merge p).symbols p.identifier = true := by
  unfold SymbolTable.merge
  by_cases h : (!hasKey st.symbols p.identifier && p.type == some "sound") = true
  · simp only [h, if_true]
    exact hasKey_upsertAssoc_self ..
  · simp only [h, if_false]
    exact hasKey_upsertAssoc_self ..

theorem merge_existing_keeps_pending (st : SymbolTable) (p : SymPatch)
    (h : hasKey st.symbols p.identifier = true) :
    (st.merge p).pendingFetches = st.pendingFetches := by
  unfold SymbolTable.merge
  simp [h]

theorem set_getD_self (l : List α) (i : Nat) (d : α) :
    l.set i (l.getD i d) = l := by
  induction l generalizing i with
  | nil => rfl
  | cons x xs ih =>
    cases i with
    | zero => rfl
    | succ j =>
      show x :: xs.set j ((x :: xs).getD (j + 1) d) = x :: xs
      rw [show (x :: xs).getD (j + 1) d = xs.getD j d from rfl, ih j]

theorem ne_empty_append (a b : String) (h : a ≠ "") : a ++ b ≠ "" := by
  intro hc
  apply h
  have hd := congrArg String.data hc
  rw [String.data_append] at hd
  exact String.ext (List.append_eq_nil.mp hd).1

theorem length_cdfFrom (pdf : List ℚ) : ∀ a : ℚ, (cdfFrom a pdf).length = pdf.length := by
  induction pdf with
  | nil => intro a; rfl
  | cons p ps ih => intro a; simp [cdfFrom, ih]

theorem chain_cdfFrom (pdf : List ℚ) (hpos : ∀ p ∈ pdf, 0 < p) :
    ∀ a : ℚ, List.Chain' (fun x y => x < y) (cdfFrom a pdf) := by
  induction pdf with
  | nil => intro a; simp [cdfFrom]
  | cons p ps ih =>
    intro a
    have hps : ∀ q ∈ ps, 0 < q := fun q hq => hpos q (by simp [hq])
    rw [cdfFrom]
    apply List.chain'_cons'.mpr
    refine ⟨?_, ih hps (p + a)⟩
    intro y hy
    cases ps with
    | nil => simp [cdfFrom] at hy
    | cons q qs =>
      have hq : 0 < q := hps q (by simp)
      simp only [cdfFrom, List.head?_cons, Option.mem_def, Option.some.injEq] at hy
      rw [← hy]
      linarith

theorem length_filter_le_eq_findIdx_lt (x : ℚ) (l : List ℚ)
    (hl : List.Sorted (fun a b => a ≤ b) l) :
    (l.filter (fun c => decide (c ≤ x))).length = l.findIdx (fun c => decide (x < c)) := by
  induction l with
  | nil => rfl
  | cons c cs ih =>
    rcases List.sorted_cons.mp hl with ⟨hall, hcs⟩
    rw [List.filter_cons, List.findIdx_cons]
    by_cases hc : c ≤ x
    · have h1 : decide (c ≤ x) = true := by simpa using hc
      have h2 : decide (x < c) = false := by simpa using not_lt.mpr hc
      rw [h1, h2]
      simp [ih hcs]
    · have hxc : x < c := not_le.mp hc
      have h1 : decide (c ≤ x) = false := by simpa using hc
      have h2 : decide (x < c) = true := by simpa using hxc
      rw [h1, h2]
      have hnil : cs.filter (fun c => decide (c ≤ x)) = [] := by
        apply List.filter_eq_nil_iff.mpr
        intro b hb
        simpa using not_le.mpr (lt_of_lt_of_le hxc (hall b hb))
      simp [hnil]

/-! ## Claims -/

/-- C5 (counterexample): for a Choice with weights `[1, 1]` (cumulative table
`[1, 2]`) and the draw `r = 1/2` — so the uniform draw over `[0, total)` is
exactly `1` — `advanceCurrentNode` selects child 1, while the first
cumulative entry greater than *or equal to* the draw is entry 0.  The source
therefore does not implement the first-entry-`≥`-draw rule at boundary
draws. -/
theorem choice_advance_draw_counterexample :
    Choice.advanceCurrentNode [1, 2] (1 / 2) = (1, true) ∧
    specChooseIdx [(1 : ℚ), 2] ((1 / 2) * 2) = 0 ∧
    (Choice.advanceCurrentNode [1, 2] (1 / 2)).1 ≠ specChooseIdx [(1 : ℚ), 2] ((1 / 2) * 2) := by
  have h1 : Choice.advanceCurrentNode [1, 2] (1 / 2) = (1, true) := by
    unfold Choice.advanceCurrentNode chooseIdx
    norm_num [List.getLastD, List.filter]
  have h2 : specChooseIdx [(1 : ℚ), 2] ((1 / 2) * 2) = 0 := by
    unfold specChooseIdx
    norm_num [List.findIdx, List.findIdx.go]
  exact ⟨h1, h2, by rw [h1, h2]; decide⟩

/-- C5 (amended): for a Choice whose cumulative-weight table is monotone
non-decreasing (as the constructor guarantees for positive weights), every
call of `advanceCurrentNode` selects the child whose cumulative entry is the
first entry *strictly greater* than the draw `r * total`, and returns
`true`. -/
theorem choice_advanceCurrentNode_first_strictly_greater (cdf : List ℚ) (r : ℚ)
    (hs : List.Sorted (fun a b => a ≤ b) cdf) :
    Choice.advanceCurrentNode cdf r
      = (cdf.findIdx (fun c => decide (r * cdf.getLastD 0 < c)), true) := by
  unfold Choice.advanceCurrentNode chooseIdx
  rw [length_filter_le_eq_findIdx_lt (r * cdf.getLastD 0) cdf hs]

theorem choice_advanceCurrentNode_first_strictly_greater_witness :
    List.Sorted (fun a b : ℚ => a ≤ b) [1, 2] ∧
    Choice.advanceCurrentNode [1, 2] (1 / 2)
      = ([(1 : ℚ), 2].findIdx (fun c => decide ((1 / 2 : ℚ) * [(1 : ℚ), 2].getLastD 0 < c)), true) :=
  ⟨by decide,
    choice_advanceCurrentNode_first_strictly_greater [1, 2] (1 / 2) (by decide)⟩

/-- C6 (counterexample): the Choice constructor accepts the parallel weight
list `[1, 0]` for two children and builds the cumulative table `[1, 1]`,
which is not strictly increasing. -/
theorem choice_cdf_counterexample :
    Option.map ASTNode.getCdf
        (Choice.new [Terminal.new ⟨"a"⟩, Terminal.new ⟨"b"⟩] [1, 0] 0) = some [1, 1] ∧
    ¬ List.Chain' (fun x y : ℚ => x < y) [(1 : ℚ), 1] := by
  have hcdf : cdfOf [(1 : ℚ), 0] = [1, 1] := by norm_num [cdfOf, cdfFrom]
  have hidx : chooseIdx [(1 : ℚ), 1] 0 = 0 := by
    unfold chooseIdx
    norm_num [List.getLastD, List.filter]
  constructor
  · simp only [Choice.new, hcdf, hidx]
    rfl
  · norm_num [List.chain'_cons]

/-- C6 (amended): for every Choice constructed from children and a parallel
list of *positive* weights, the cumulative-weight table has exactly as many
entries as children and is strictly increasing. -/
theorem choice_cdf_strictly_increasing (choices : List ASTNode) (pdf : List ℚ) (r : ℚ)
    (node : ASTNode) (hnew : Choice.new choices pdf r = some node)
    (hpos : ∀ p ∈ pdf, 0 < p) (hlen : pdf.length = choices.length) :
    node.getCdf.length = choices.length ∧
    List.Chain' (fun x y => x < y) node.getCdf := by
  simp only [Choice.new] at hnew
  cases hget : choices.get? (chooseIdx (cdfOf pdf) r) with
  | none => rw [hget] at hnew; exact absurd hnew (by simp)
  | some cur =>
    rw [hget] at hnew
    have hnode : node = ASTNode.choice cur.current cur.current cur choices pdf (cdfOf pdf)
        (chooseIdx (cdfOf pdf) r) := by
      cases hnew; rfl
    subst hnode
    refine ⟨?_, chain_cdfFrom pdf hpos 0⟩
    show (cdfOf pdf).length = choices.length
    rw [cdfOf, length_cdfFrom, hlen]

theorem choice_cdf_strictly_increasing_witness :
    Choice.new [Terminal.new ⟨"a"⟩, Terminal.new ⟨"b"⟩] [1, 2] 0 = some choiceCdfWitnessNode ∧
    (∀ p ∈ ([1, 2] : List ℚ), 0 < p) ∧
    (choiceCdfWitnessNode.getCdf.length = [Terminal.new ⟨"a"⟩, Terminal.new ⟨"b"⟩].length ∧
      List.Chain' (fun x y : ℚ => x < y) choiceCdfWitnessNode.getCdf) := by
  have hcdf : cdfOf [(1 : ℚ), 2] = [1, 3] := by norm_num [cdfOf, cdfFrom]
  have hidx : chooseIdx [(1 : ℚ), 3] 0 = 0 := by
    unfold chooseIdx
    norm_num [List.getLastD, List.filter]
  have hnew : Choice.new [Terminal.new ⟨"a"⟩, Terminal.new ⟨"b"⟩] [1, 2] 0
      = some choiceCdfWitnessNode := by
    simp only [Choice.new, hcdf, hidx]
    rfl
  exact ⟨hnew, by decide,
    choice_cdf_strictly_increasing [Terminal.new ⟨"a"⟩, Terminal.new ⟨"b"⟩] [1, 2] 0
      choiceCdfWitnessNode hnew (by decide) (by decide)⟩

/-- C8: constructing a Sequence from an empty child list fails inside the
constructor (`super(seq[0])` reads `current()` of an undefined child and
throws), while construction from any non-empty child list succeeds; an empty
Sequence is never silently constructed. -/
theorem sequence_empty_construction_fails :
    Sequence.new ([] : List ASTNode) = none ∧
    ∀ (x : ASTNode) (xs : List ASTNode), (Sequence.new (x :: xs)).isSome = true :=
  ⟨rfl, fun _ _ => rfl⟩

/-- C9: `Scheduler.start()` is idempotent — a second consecutive invocation
(while the first interval is still registered) changes nothing, and from the
constructor's state two consecutive invocations leave exactly one live
interval. -/
theorem scheduler_start_idempotent :
    (∀ s : Scheduler, s.start.start = s.start) ∧
    (Scheduler.init.start.start).activeTimers.length = 1 := by
  refine ⟨?_, by decide⟩
  intro s
  cases h : s.timerFn with
  | some t => simp [Scheduler.start, h]
  | none => simp [Scheduler.start, h]

theorem append_ne_empty_right (a b : String) (h : b ≠ "") : a ++ b ≠ "" := by
  intro hc
  apply h
  have hd := congrArg String.data hc
  rw [String.data_append] at hd
  exact String.ext (List.append_eq_nil.mp hd).2

theorem paramString_go (ps : List (String × String)) :
    ∀ acc : String, acc ≠ "" →
      ps.foldl (fun acc kv => acc ++ (if acc = "" then "" else "_") ++ kv.1 ++ "-" ++ kv.2) acc
        = acc ++ joinParamsRest ps := by
  induction ps with
  | nil =>
    intro acc h
    simp [joinParamsRest, String.append_empty]
  | cons kv rest ih =>
    intro acc h
    rw [List.foldl_cons, if_neg h]
    have hne : acc ++ "_" ++ kv.1 ++ "-" ++ kv.2 ≠ "" :=
      ne_empty_append _ _ (ne_empty_append _ _ (ne_empty_append _ _ (ne_empty_append _ _ h)))
    rw [ih _ hne, joinParamsRest]
    simp [String.append_assoc]

theorem paramString_eq_joinParams (ps : List (String × String)) :
    paramString ps = joinParams ps := by
  cases ps with
  | nil => rfl
  | cons kv rest =>
    unfold paramString
    rw [List.foldl_cons, if_pos rfl, String.append_empty, String.empty_append]
    have hne : kv.1 ++ "-" ++ kv.2 ≠ "" :=
      ne_empty_append _ _ (append_ne_empty_right _ _ (by decide))
    rw [paramString_go rest _ hne, joinParams]

/-- C7 (counterexample): two occurrences of the literal `kick` with the same
query-parameter set but in different textual orders receive different ids —
the suffix uses the parameters' insertion (textual) order, not a sorted
order. -/
theorem sound_literal_id_order_counterexample :
    List.Perm [("a", "1"), ("b", "2")] [("b", "2"), ("a", "1")] ∧
    soundLiteralId "kick" [("a", "1"), ("b", "2")]
      ≠ soundLiteralId "kick" [("b", "2"), ("a", "1")] :=
  ⟨by decide, by decide⟩

/-- C7 (amended): the emitted sound-literal id is a deterministic composite of
the whitespace-normalized literal text and the parameter key-value pairs
joined in their textual (insertion) order — so occurrences agreeing on the
literal and on the textual parameter order share an id. -/
theorem sound_literal_id_textual_order (value : String) (ps : List (String × String)) :
    soundLiteralId value ps = replaceWsRuns value ++ "__" ++ joinParams ps := by
  unfold soundLiteralId
  rw [paramString_eq_joinParams]

/-- C10: immediately after construction, every AST node variant has
`current() = next()`, both equal to the current step of its initial child
(for a Terminal, the step itself; for a Sequence, the first child; for a
Choice, the child drawn by the constructor). -/
theorem astnode_constructor_current_eq_next :
    (∀ s : Step, (Terminal.new s).current = (Terminal.new s).next ∧
      (Terminal.new s).current = s) ∧
    (∀ (seq : List ASTNode) (node : ASTNode), Sequence.new seq = some node →
      node.current = node.next ∧ node.current = (seq.headD default).current) ∧
    (∀ (choices : List ASTNode) (pdf : List ℚ) (r : ℚ) (node : ASTNode),
      Choice.new choices pdf r = some node →
      node.current = node.next ∧
      node.current = (choices.getD (chooseIdx (cdfOf pdf) r) default).current) := by
  refine ⟨fun s => ⟨rfl, rfl⟩, ?_, ?_⟩
  · intro seq node h
    cases seq with
    | nil => exact absurd h (by simp [Sequence.new])
    | cons s0 rest =>
      simp only [Sequence.new, Option.some.injEq] at h
      subst h
      exact ⟨rfl, rfl⟩
  · intro choices pdf r node h
    simp only [Choice.new] at h
    cases hget : choices.get? (chooseIdx (cdfOf pdf) r) with
    | none => rw [hget] at h; exact absurd h (by simp)
    | some cur =>
      rw [hget] at h
      simp only [Option.some.injEq] at h
      subst h
      refine ⟨rfl, ?_⟩
      show cur.current = (choices.getD (chooseIdx (cdfOf pdf) r) default).current
      rw [List.getD_eq_getElem?_getD]
      rw [← List.get?_eq_getElem?, hget]
      rfl

theorem astnode_constructor_current_eq_next_witness :
    ((Terminal.new ⟨"kick"⟩).current = (Terminal.new ⟨"kick"⟩).next ∧
      (Terminal.new ⟨"kick"⟩).current = ⟨"kick"⟩) ∧
    ((ASTNode.sequence ⟨"a"⟩ ⟨"a"⟩ (ASTNode.terminal ⟨"a"⟩ ⟨"a"⟩)
        [ASTNode.terminal ⟨"a"⟩ ⟨"a"⟩] 0).current
      = (ASTNode.sequence ⟨"a"⟩ ⟨"a"⟩ (ASTNode.terminal ⟨"a"⟩ ⟨"a"⟩)
        [ASTNode.terminal ⟨"a"⟩ ⟨"a"⟩] 0).next) ∧
    (choiceCurrentWitnessNode.current = choiceCurrentWitnessNode.next) := by
  have hseq : Sequence.new [ASTNode.terminal ⟨"a"⟩ ⟨"a"⟩]
      = some (ASTNode.sequence ⟨"a"⟩ ⟨"a"⟩ (ASTNode.terminal ⟨"a"⟩ ⟨"a"⟩)
        [ASTNode.terminal ⟨"a"⟩ ⟨"a"⟩] 0) := rfl
  have hcdf : cdfOf [(1 : ℚ)] = [1] := by norm_num [cdfOf, cdfFrom]
  have hidx : chooseIdx [(1 : ℚ)] 0 = 0 := by
    unfold chooseIdx
    norm_num [List.getLastD, List.filter]
  have hch : Choice.new [ASTNode.terminal ⟨"a"⟩ ⟨"a"⟩] [1] 0 = some choiceCurrentWitnessNode := by
    simp only [Choice.new, hcdf, hidx]
    rfl
  exact ⟨astnode_constructor_current_eq_next.1 ⟨"kick"⟩,
    (astnode_constructor_current_eq_next.2.1 [ASTNode.terminal ⟨"a"⟩ ⟨"a"⟩] _ hseq).1,
    (astnode_constructor_current_eq_next.2.2 [ASTNode.terminal ⟨"a"⟩ ⟨"a"⟩] [1] 0 _ hch).1⟩

theorem hasKey_iff_mem_keys (l : List (String × α)) (k : String) :
    hasKey l k = true ↔ k ∈ l.map Prod.fst := by
  simp only [hasKey, List.any_eq_true, beq_iff_eq, List.mem_map]

theorem hasKey_removeAssoc_iff (l : List (String × α)) (d k : String) :
    hasKey (removeAssoc l d) k = true ↔ (hasKey l k = true ∧ k ≠ d) := by
  simp only [hasKey, removeAssoc, List.any_eq_true, List.mem_filter, beq_iff_eq, bne_iff_ne,
    ne_eq]
  constructor
  · rintro ⟨kv, ⟨hm, hne⟩, hk⟩
    exact ⟨⟨kv, hm, hk⟩, by rw [← hk]; exact hne⟩
  · rintro ⟨⟨kv, hm, hk⟩, hkd⟩
    exact ⟨kv, ⟨hm, by rw [hk]; exact hkd⟩, hk⟩

theorem hasKey_foldl_removeAssoc (ds : List String) :
    ∀ (l : List (String × α)) (k : String),
      hasKey (ds.foldl (fun sy d => removeAssoc sy d) l) k = true ↔
        (hasKey l k = true ∧ k ∉ ds) := by
  induction ds with
  | nil =>
    intro l k
    simp
  | cons d rest ih =>
    intro l k
    rw [List.foldl_cons, ih (removeAssoc l d) k, hasKey_removeAssoc_iff]
    simp only [List.mem_cons]
    tauto

theorem mem_xorJS (a : String) (x y : List String) :
    a ∈ xorJS x y ↔ ((a ∈ x ∧ a ∉ y) ∨ (a ∈ y ∧ a ∉ x)) := by
  simp [xorJS, List.mem_filter, List.mem_append]

theorem mem_intersectionJS (a : String) (x y : List String) :
    a ∈ intersectionJS x y ↔ (a ∈ x ∧ a ∈ y) := by
  simp [intersectionJS, List.mem_filter]

/-- The membership effect of the pruning loop: an identifier survives iff it
was a key before and is active somewhere. -/
theorem presence_after_prune (l : List (String × SymbolRecord)) (act : List String)
    (id : String) :
    hasKey ((intersectionJS (xorJS (l.map Prod.fst) act) (l.map Prod.fst)).foldl
        (fun sy d => removeAssoc sy d) l) id = true
      ↔ (hasKey l id = true ∧ id ∈ act) := by
  rw [hasKey_foldl_removeAssoc, hasKey_iff_mem_keys]
  constructor
  · rintro ⟨hm, hnd⟩
    refine ⟨hm, ?_⟩
    by_contra hact
    exact hnd ((mem_intersectionJS ..).mpr ⟨(mem_xorJS ..).mpr (Or.inl ⟨hm, hact⟩), hm⟩)
  · rintro ⟨hm, hact⟩
    refine ⟨hm, fun hd => ?_⟩
    rcases (mem_intersectionJS ..).mp hd with ⟨hx, _⟩
    rcases (mem_xorJS ..).mp hx with ⟨_, h2⟩ | ⟨_, h2⟩
    · exact h2 hact
    · exact h2 hm

/-- C2 (amended): after `updateActiveIdentifiers(blockKey, lexicon)`, an
identifier is present in the symbols map iff it was present *before the call*
and belongs to the union of active identifiers across all blocks — so a
dangling identifier is removed and one still referenced by another block
survives, but an active identifier never merged into the table is not added
by the call (absence from the map does not imply absence from the union). -/
theorem updateActiveIdentifiers_presence (st : SymbolTable) (blockKey : String)
    (lexicon : Lexicon) (id : String) :
    hasKey (st.updateActiveIdentifiers blockKey lexicon).symbols id = true ↔
      (hasKey st.symbols id = true ∧
        id ∈ allActiveIdentifiers
          (st.updateActiveIdentifiers blockKey lexicon).activeIdentifiersByBlock) :=
  presence_after_prune st.symbols
    (allActiveIdentifiers
      (upsertAssoc st.activeIdentifiersByBlock blockKey (activeIdentifiersOf lexicon))) id

theorem updateActiveIdentifiers_presence_witness :
    hasKey ((SymbolTable.mk
        [("kick", SymbolRecord.mk "kick" (some "sound") none none)] [] []).updateActiveIdentifiers
          "a" (Lexicon.mk [LexToken.mk "IDENTIFIER" "kick"] [])).symbols "kick" = true ∧
    hasKey (SymbolTable.mk
        [("kick", SymbolRecord.mk "kick" (some "sound") none none)] [] []).symbols "kick" = true ∧
    "kick" ∈ allActiveIdentifiers (((SymbolTable.mk
        [("kick", SymbolRecord.mk "kick" (some "sound") none none)] [] []).updateActiveIdentifiers
          "a" (Lexicon.mk [LexToken.mk "IDENTIFIER" "kick"] [])).activeIdentifiersByBlock) :=
  ⟨(updateActiveIdentifiers_presence
      (SymbolTable.mk [("kick", SymbolRecord.mk "kick" (some "sound") none none)] [] [])
      "a" (Lexicon.mk [LexToken.mk "IDENTIFIER" "kick"] []) "kick").mpr
      ⟨by decide, by decide⟩,
    by decide, by decide⟩

/-- C2 (counterexample): starting from an empty symbol table, analyzing a
block whose token stream references the identifier `kick` leaves `kick`
absent from the symbols map yet present in the union of active identifiers
across all blocks — refuting "absent from the map iff absent from the
union". -/
theorem update_active_identifiers_counterexample :
    hasKey ((SymbolTable.mk [] [] []).updateActiveIdentifiers "a"
        (Lexicon.mk [LexToken.mk "IDENTIFIER" "kick"] [])).symbols "kick" = false ∧
    "kick" ∈ allActiveIdentifiers (((SymbolTable.mk [] [] []).updateActiveIdentifiers "a"
        (Lexicon.mk [LexToken.mk "IDENTIFIER" "kick"] [])).activeIdentifiersByBlock) :=
  ⟨by decide, by decide⟩

theorem foldl_merge_existing_pending (i : String) (ps : List SymPatch) :
    ∀ st : SymbolTable, hasKey st.symbols i = true → (∀ q ∈ ps, q.identifier = i) →
      (ps.foldl SymbolTable.merge st).pendingFetches = st.pendingFetches := by
  induction ps with
  | nil =>
    intro st _ _
    rfl
  | cons q rest ih =>
    intro st hpres hqs
    have hqi : q.identifier = i := hqs q (by simp)
    have hq : hasKey st.symbols q.identifier = true := by rw [hqi]; exact hpres
    rw [List.foldl_cons, ih (st.merge q) (by rw [← hqi]; exact hasKey_merge_self st q)
      (fun p hp => hqs p (by simp [hp]))]
    exact merge_existing_keeps_pending st q hq

/-- C3: a merge of a brand-new identifier with kind `sound` schedules exactly
one debounced resolution attempt; any number of further merges for the same
identifier (while it stays in the table) schedule no additional attempt; and
if the identifier is removed before the debounce fires, the fired callback
performs no fetch and commits no write. -/
theorem merge_new_sound_schedules_once (st : SymbolTable) (p : SymPatch)
    (hnew : hasKey st.symbols p.identifier = false) (hty : p.type = some "sound")
    (ps : List SymPatch) (hps : ∀ q ∈ ps, q.identifier = p.identifier) :
    (st.merge p).pendingFetches = st.pendingFetches ++ [p.identifier] ∧
    (ps.foldl SymbolTable.merge (st.merge p)).pendingFetches = (st.merge p).pendingFetches ∧
    (∀ env : FetchEnv,
      ((st.merge p).remove p.identifier).fetchNewSound p.identifier env RemovalPoint.never
        = (((st.merge p).remove p.identifier), false)) := by
  refine ⟨?_, ?_, ?_⟩
  · unfold SymbolTable.merge
    simp [hnew, hty]
  · exact foldl_merge_existing_pending p.identifier ps (st.merge p) (hasKey_merge_self st p) hps
  · intro env
    unfold SymbolTable.fetchNewSound
    have hgone : hasKey ((st.merge p).remove p.identifier).symbols p.identifier = false :=
      hasKey_removeAssoc ..
    simp [hgone]

theorem merge_new_sound_schedules_once_witness :
    hasKey (SymbolTable.mk [] [] []).symbols "kick" = false ∧
    ((SymbolTable.mk [] [] []).merge
        (SymPatch.mk "kick" (some "sound") none none)).pendingFetches
      = (SymbolTable.mk [] [] []).pendingFetches ++ ["kick"] ∧
    ([SymPatch.mk "kick" none (some "searching") none,
        SymPatch.mk "kick" (some "sound") none none].foldl SymbolTable.merge
          ((SymbolTable.mk [] [] []).merge
            (SymPatch.mk "kick" (some "sound") none none))).pendingFetches
      = ((SymbolTable.mk [] [] []).merge
          (SymPatch.mk "kick" (some "sound") none none)).pendingFetches ∧
    (((SymbolTable.mk [] [] []).merge
        (SymPatch.mk "kick" (some "sound") none none)).remove "kick").fetchNewSound "kick"
          (FetchEnv.mk [] 0) RemovalPoint.never
      = ((((SymbolTable.mk [] [] []).merge
          (SymPatch.mk "kick" (some "sound") none none)).remove "kick"), false) := by
  have h := merge_new_sound_schedules_once (SymbolTable.mk [] [] [])
    (SymPatch.mk "kick" (some "sound") none none) (by decide) rfl
    [SymPatch.mk "kick" none (some "searching") none,
      SymPatch.mk "kick" (some "sound") none none] (by decide)
  exact ⟨by decide, h.1, h.2.1, h.2.2 (FetchEnv.mk [] 0)⟩

/-- C1 (counterexample): the identifier `kick` is present when the debounced
resolution fires, is removed while the search request is awaited, and the
(empty) resolution result is committed anyway: the final table again holds a
record for `kick` with status `unavailable`.  The existence check happens
only at fire time, so a stale resolution write re-creates the deleted symbol
record, refuting the claimed commit-time re-check. -/
theorem fetch_commit_after_removal_counterexample :
    ((SymbolTable.mk [("kick", SymbolRecord.mk "kick" (some "sound") none none)] [] []
        ).fetchNewSound "kick" (FetchEnv.mk [] 0) RemovalPoint.duringSearch).1.symbols
      = [("kick", SymbolRecord.mk "kick" none (some "unavailable") none)] ∧
    hasKey ((SymbolTable.mk [("kick", SymbolRecord.mk "kick" (some "sound") none none)] [] []
        ).fetchNewSound "kick" (FetchEnv.mk [] 0) RemovalPoint.duringSearch).1.symbols
      "kick" = true :=
  ⟨by decide, by decide⟩

/-- C1 (amended): the existence of the identifier is checked exactly once,
when the debounced callback fires — a removal before the fire means no fetch
is performed and no write is made (the identifier stays absent); but once the
check has passed, a removal while the search is in flight does not cancel the
commit: the callback's writes put the identifier back into the table. -/
theorem fetch_existence_checked_at_fire (st : SymbolTable) (id : String) (env : FetchEnv) :
    (st.fetchNewSound id env RemovalPoint.beforeFire = (st.remove id, false) ∧
      hasKey (st.remove id).symbols id = false) ∧
    (hasKey st.symbols id = true →
      hasKey (st.fetchNewSound id env RemovalPoint.duringSearch).1.symbols id = true) := by
  constructor
  · constructor
    · unfold SymbolTable.fetchNewSound
      have hgone : hasKey (st.remove id).symbols id = false := hasKey_removeAssoc ..
      simp [hgone]
    · exact hasKey_removeAssoc ..
  · intro hpres
    unfold SymbolTable.fetchNewSound
    simp only [show (RemovalPoint.duringSearch = RemovalPoint.beforeFire) = False by simp,
      if_false, hpres, Bool.not_true, Bool.false_eq_true, if_true, reduceIte]
    split
    · exact hasKey_merge_self ..
    · exact hasKey_merge_self ..

theorem fetch_existence_checked_at_fire_witness :
    ((SymbolTable.mk [("kick", SymbolRecord.mk "kick" (some "sound") none none)] [] []
        ).fetchNewSound "kick" (FetchEnv.mk [] 0) RemovalPoint.beforeFire
      = ((SymbolTable.mk [("kick", SymbolRecord.mk "kick" (some "sound") none none)] [] []
        ).remove "kick", false) ∧
      hasKey ((SymbolTable.mk [("kick", SymbolRecord.mk "kick" (some "sound") none none)] [] []
        ).remove "kick").symbols "kick" = false) ∧
    (hasKey (SymbolTable.mk
        [("kick", SymbolRecord.mk "kick" (some "sound") none none)] [] []).symbols "kick" = true ∧
      hasKey ((SymbolTable.mk [("kick", SymbolRecord.mk "kick" (some "sound") none none)] [] []
        ).fetchNewSound "kick" (FetchEnv.mk [] 0) RemovalPoint.duringSearch).1.symbols
        "kick" = true) := by
  have h := fetch_existence_checked_at_fire
    (SymbolTable.mk [("kick", SymbolRecord.mk "kick" (some "sound") none none)] [] [])
    "kick" (FetchEnv.mk [] 0)
  exact ⟨h.1, by decide, h.2 (by decide)⟩

theorem advance_of_isTerminal (t : ASTNode) (h : isTerminal t = true) (rs : List ℚ) :
    t.advance rs = (t, true, rs) := by
  cases t with
  | terminal c n => rfl
  | sequence c n cur seq i => exact absurd h (by simp [isTerminal])
  | choice c n cur cs pdf cdf k => exact absurd h (by simp [isTerminal])

theorem isTerminal_getD (ts : List ASTNode) (hts : ts.all isTerminal = true) (i : Nat)
    (hi : i < ts.length) : isTerminal (ts.getD i default) = true := by
  rw [List.getD_eq_getElem?_getD, List.getElem?_eq_getElem hi]
  exact List.all_eq_true.mp hts _ (List.getElem_mem ..)

theorem advance_seq_terminal_last (ts : List ASTNode) (hts : ts.all isTerminal = true)
    (c n : Step) (i : Nat) (hi : i + 1 = ts.length) (rs : List ℚ) :
    (ASTNode.sequence c n (ts.getD i default) ts i).advance rs
      = (ASTNode.sequence n ((ts.getD 0 default).next) (ts.getD 0 default) ts 0, true, rs) := by
  have hcur : isTerminal (ts.getD i default) = true := isTerminal_getD ts hts i (by omega)
  have hbeq : (i == ts.length - 1) = true := beq_iff_eq.mpr (by omega)
  simp only [ASTNode.advance, advance_of_isTerminal _ hcur, set_getD_self, if_true,
    Sequence.advanceCurrentNode, List.length_set, hbeq]

theorem advance_seq_terminal_mid (ts : List ASTNode) (hts : ts.all isTerminal = true)
    (c n : Step) (i : Nat) (hi : i + 1 < ts.length) (rs : List ℚ) :
    (ASTNode.sequence c n (ts.getD i default) ts i).advance rs
      = (ASTNode.sequence n ((ts.getD (i + 1) default).next) (ts.getD (i + 1) default) ts
          (i + 1), false, rs) := by
  have hcur : isTerminal (ts.getD i default) = true := isTerminal_getD ts hts i (by omega)
  have hbeq : (i == ts.length - 1) = false := by
    rw [beq_eq_false_iff_ne]
    omega
  simp only [ASTNode.advance, advance_of_isTerminal _ hcur, set_getD_self, if_true,
    Sequence.advanceCurrentNode, List.length_set, hbeq, Bool.false_eq_true, if_false]

theorem runAdvances_seq_terminal (ts : List ASTNode) (hts : ts.all isTerminal = true) :
    ∀ m : Nat, ∀ i : Nat, 0 < m → i + m = ts.length → ∀ (c n : Step) (rs : List ℚ),
      (runAdvances m (ASTNode.sequence c n (ts.getD i default) ts i) rs).2.1
          = List.replicate (m - 1) false ++ [true] ∧
      (runAdvances m (ASTNode.sequence c n (ts.getD i default) ts i) rs).1.seqIndex
          = some 0 ∧
      (runAdvances m (ASTNode.sequence c n (ts.getD i default) ts i) rs).2.2 = rs := by
  intro m
  induction m with
  | zero => intro i h0; exact absurd h0 (by omega)
  | succ m' ih =>
    intro i _ hlen c n rs
    have hsucc : ∀ (node : ASTNode) (rs : List ℚ),
        runAdvances (m' + 1) node rs
          = ((runAdvances m' (node.advance rs).1 (node.advance rs).2.2).1,
             (node.advance rs).2.1
               :: (runAdvances m' (node.advance rs).1 (node.advance rs).2.2).2.1,
             (runAdvances m' (node.advance rs).1 (node.advance rs).2.2).2.2) :=
      fun _ _ => rfl
    cases m' with
    | zero =>
      have hadv := advance_seq_terminal_last ts hts c n i (by omega) rs
      rw [hsucc, hadv]
      simp [runAdvances, ASTNode.seqIndex]
    | succ m'' =>
      have hadv := advance_seq_terminal_mid ts hts c n i (by omega) rs
      have hrest := ih (i + 1) (by omega) (by omega) n
        ((ts.getD (i + 1) default).next) rs
      rw [hsucc, hadv]
      dsimp only
      refine ⟨?_, hrest.2.1, hrest.2.2⟩
      rw [hrest.1]
      simp [List.replicate_succ]

/-- C4: for a Sequence built from N Terminal children (N ≥ 1, current child
index 0), N consecutive calls of `advance()` report `true` exactly once —
on the Nth call — after which the current child index is back at 0; the
round-robin is deterministic (the random stream is untouched). -/
theorem sequence_advance_period (steps : List Step) (node : ASTNode)
    (h : Sequence.new (steps.map Terminal.new) = some node) (rs : List ℚ) :
    (runAdvances steps.length node rs).2.1
        = List.replicate (steps.length - 1) false ++ [true] ∧
    (runAdvances steps.length node rs).1.seqIndex = some 0 ∧
    (runAdvances steps.length node rs).2.2 = rs := by
  cases steps with
  | nil => exact absurd h (by simp [Sequence.new])
  | cons s0 srest =>
    simp only [List.map_cons, Sequence.new, Option.some.injEq] at h
    subst h
    have hts : (Terminal.new s0 :: srest.map Terminal.new).all isTerminal = true := by
      rw [List.all_eq_true]
      intro t ht
      rcases List.mem_cons.mp ht with rfl | ht
      · rfl
      · rcases List.mem_map.mp ht with ⟨s, _, rfl⟩
        rfl
    have hrun := runAdvances_seq_terminal (Terminal.new s0 :: srest.map Terminal.new) hts
      (s0 :: srest).length 0 (by simp) (by simp)
      (Terminal.new s0).current (Terminal.new s0).current rs
    simpa using hrun

theorem sequence_advance_period_witness :
    Sequence.new (([⟨"a"⟩, ⟨"b"⟩, ⟨"c"⟩] : List Step).map Terminal.new)
        = some seqPeriodWitnessNode ∧
    (runAdvances ([⟨"a"⟩, ⟨"b"⟩, ⟨"c"⟩] : List Step).length seqPeriodWitnessNode []).2.1
        = List.replicate (([⟨"a"⟩, ⟨"b"⟩, ⟨"c"⟩] : List Step).length - 1) false ++ [true] ∧
    (runAdvances ([⟨"a"⟩, ⟨"b"⟩, ⟨"c"⟩] : List Step).length seqPeriodWitnessNode []).1.seqIndex
        = some 0 ∧
    (runAdvances ([⟨"a"⟩, ⟨"b"⟩, ⟨"c"⟩] : List Step).length seqPeriodWitnessNode []).2.2 = [] := by
  have h := sequence_advance_period [⟨"a"⟩, ⟨"b"⟩, ⟨"c"⟩] seqPeriodWitnessNode rfl []
  exact ⟨rfl, h.1, h.2.1, h.2.2⟩

end Tr45h
